import Mathlib

/-!
Verification of the acoustic front-end of the `aps` repository - the
invertible STFT/iSTFT engine (`src/src/asr/feats/utils.py`) and the feature
transform pipeline (`src/asr/feats/asr.py`) - against its natural-language
specification.

All tensor arithmetic is shallowly embedded: dense tensors become functions
`ℕ → ℝ` (or lists), float arithmetic is idealized as exact real arithmetic,
except where a claim is precisely about IEEE special-value propagation
(see the `FP` type below).  In-place tensor mutation is modelled by explicit
state passing: a stage returns `(result, input buffer after the call)`.
-/

namespace Aps

/-- `EPSILON = th.finfo(th.float32).eps` (utils.py line 15): the float32
machine epsilon `2 ^ (-23)`. -/
noncomputable def EPSILON : ℝ := 1 / 2 ^ 23

/-- FFT size `B` (utils.py line 50): `2 ** math.ceil(math.log2(frame_len))`
when `round_pow_of_two`, else `frame_len` itself. -/
def fft_points (frame_len : ℕ) (round_pow_of_two : Bool) : ℕ :=
  if round_pow_of_two then 2 ^ Nat.clog 2 frame_len else frame_len

/-- `th.hann_window(frame_len)` (periodic Hann, used by `init_window` for
`wnd = "hann"`): coefficient `m` is `0.5 * (1 - cos(2*pi*m/frame_len))`. -/
noncomputable def hann_window (frame_len : ℕ) (m : ℕ) : ℝ :=
  1 / 2 * (1 - Real.cos (2 * Real.pi * m / frame_len))

/-- The `sqrthann` window (utils.py lines 22-23): elementwise square root of
the periodic Hann window. -/
noncomputable def sqrthann_window (frame_len : ℕ) (m : ℕ) : ℝ :=
  Real.sqrt (hann_window frame_len m)

/-- Entry `(m, k)` of the real part of `th.fft(I / S, 1)` (utils.py 56-58),
where `I` is the `B x B` identity as a complex tensor: row `m` holds the DFT
of the `m`-th standard basis vector, so the real part of bin `k` is
`cos(2*pi*k*m/B) / S`. -/
noncomputable def fft_identity_re (B : ℕ) (S : ℝ) (m k : ℕ) : ℝ :=
  Real.cos (2 * Real.pi * k * m / B) / S

/-- Imaginary part of `th.fft(I / S, 1)` (utils.py 56-58): `-sin(2*pi*k*m/B) / S`. -/
noncomputable def fft_identity_im (B : ℕ) (S : ℝ) (m k : ℕ) : ℝ :=
  -Real.sin (2 * Real.pi * k * m / B) / S

/-- `init_kernel` (utils.py 40-66) as a function of output plane `p < 2*B` and
window position `m < frame_len` (the `[2B, 1, frame_len]` reshape of the
transposed, window-scaled, truncated DFT matrix: plane `p = c*B + k` holds the
real (`c = 0`) or imaginary (`c = 1`) basis of bin `k`, so `c = p / B` and
`k = p % B`).  `frame_hop` is accepted but unused, exactly as in the source.
The division by `S = sqrt(B)` (when `normalized`) happens inside the FFT
argument `I / S`; the extra division by `B` (when `inverse and not normalized`)
happens after. -/
noncomputable def init_kernel (frame_len frame_hop : ℕ) (window : ℕ → ℝ)
    (round_pow_of_two normalized inverse : Bool) (p m : ℕ) : ℝ :=
  let B := fft_points frame_len round_pow_of_two
  let S : ℝ := if normalized then Real.sqrt B else 1
  let Kre : ℕ → ℕ → ℝ := fun mm k =>
    if inverse && !normalized then fft_identity_re B S mm k / B else fft_identity_re B S mm k
  let Kim : ℕ → ℕ → ℝ := fun mm k =>
    if inverse && !normalized then fft_identity_im B S mm k / B else fft_identity_im B S mm k
  (if p / B = 0 then Kre m (p % B) else Kim m (p % B)) * window m

/-- `tf.conv1d(wav, kernel, stride=frame_hop, padding=0)` (utils.py line 133)
for one utterance and one input channel: output plane `p` at frame `t`. -/
noncomputable def conv1d (wav : ℕ → ℝ) (kernel : ℕ → ℕ → ℝ)
    (kernel_width stride p t : ℕ) : ℝ :=
  ∑ m ∈ Finset.range kernel_width, wav (t * stride + m) * kernel p m

/-- The (real, imag) pair returned by `_forward_stft(..., output="complex")`,
as bin/frame indexed functions. -/
structure Spectra where
  re : ℕ → ℕ → ℝ
  im : ℕ → ℕ → ℝ

/-- `_forward_stft(wav, kernel, output="complex", ...)` (utils.py 108-151) for
a single utterance: convolve with the `2B`-plane kernel at stride `frame_hop`,
then `real, imag = th.chunk(packed, 2, dim=-2)`.  `B` plays the role of
`kernel.shape[0] // 2`.  The `onesided` flag only restricts which bins are
read downstream (a slice), so it does not change these functions; batch and
channel handling is shape bookkeeping, covered by `forward_stft_shape`. -/
noncomputable def forward_stft_complex (wav : ℕ → ℝ) (kernel : ℕ → ℕ → ℝ)
    (B frame_len frame_hop : ℕ) : Spectra where
  re := fun k t => conv1d wav kernel frame_len frame_hop k t
  im := fun k t => conv1d wav kernel frame_len frame_hop (B + k) t

/-- `tf.conv_transpose1d(input, kernel, stride, padding=0)` (utils.py 204,
214) with `num_planes` input channels and one output channel: overlap-add of
the per-frame kernel contributions at sample `i`. -/
noncomputable def conv_transpose1d (input : ℕ → ℕ → ℝ) (kernel : ℕ → ℕ → ℝ)
    (num_planes T kernel_width stride : ℕ) (i : ℕ) : ℝ :=
  ∑ t ∈ Finset.range T, ∑ p ∈ Finset.range num_planes,
    if t * stride ≤ i ∧ i < t * stride + kernel_width then
      input p t * kernel p (i - t * stride)
    else 0

/-- The one-sided-to-full-spectrum extension of `_inverse_stft`
(utils.py 195-200): `th.cat([x, sign * x[reverse]], 1)` with
`reverse = range(kernel.shape[0] // 4 - 1, 0, -1)`, i.e. bin `j ≥ num_bins`
reads bin `2 * num_bins - 2 - j` (which is `B - j` for even `B`). -/
noncomputable def onesided_extend (num_bins : ℕ) (x : ℕ → ℕ → ℝ) (sign : ℝ)
    (j t : ℕ) : ℝ :=
  if j < num_bins then x j t else sign * x (2 * num_bins - 2 - j) t

/-- The packed `2B`-plane tensor handed to the transposed convolution by
`_inverse_stft` (utils.py 195-202): real planes first, then imaginary planes,
each extended by conjugate symmetry when `onesided`. -/
noncomputable def istft_packed (sp : Spectra) (B : ℕ) (onesided : Bool)
    (p t : ℕ) : ℝ :=
  let re := if onesided then onesided_extend (2 * B / 4 + 1) sp.re 1 else sp.re
  let im := if onesided then onesided_extend (2 * B / 4 + 1) sp.im (-1) else sp.im
  if p < B then re p t else im (p - B) t

/-- The raw accumulated samples `s` of `_inverse_stft` (utils.py line 204),
before window-energy normalization. -/
noncomputable def istft_raw (sp : Spectra) (kernel : ℕ → ℕ → ℝ)
    (B frame_len frame_hop T : ℕ) (onesided : Bool) (i : ℕ) : ℝ :=
  conv_transpose1d (istft_packed sp B onesided) kernel (2 * B) T frame_len frame_hop i

/-- The squared-window overlap-add denominator `norm` of `_inverse_stft`
(utils.py 208-214): the window squared, repeated over all `T` frames (one
input channel per window position), transpose-convolved with the identity
kernel `I = th.eye(W)[:, None]` at the same stride. -/
noncomputable def istft_norm (window : ℕ → ℝ) (frame_len frame_hop T : ℕ)
    (i : ℕ) : ℝ :=
  conv_transpose1d (fun c _ => window c ^ 2) (fun c m => if c = m then 1 else 0)
    frame_len T frame_len frame_hop i

/-- `_inverse_stft(..., input="complex")` (utils.py 154-218) for a single
utterance: `s = th.where(norm == 0, s, s / norm)`. -/
noncomputable def inverse_stft_complex (sp : Spectra) (kernel : ℕ → ℕ → ℝ)
    (window : ℕ → ℝ) (B frame_len frame_hop T : ℕ) (onesided : Bool)
    (i : ℕ) : ℝ :=
  let s := istft_raw sp kernel B frame_len frame_hop T onesided i
  let norm := istft_norm window frame_len frame_hop T i
  if norm = 0 then s else s / norm

/-- `forward_stft(..., output="complex")` (utils.py 221-243): build the
forward kernel with `init_kernel` and call the inner transform. -/
noncomputable def forward_stft (wav : ℕ → ℝ) (frame_len frame_hop : ℕ)
    (window : ℕ → ℝ) (round_pow_of_two normalized : Bool) : Spectra :=
  forward_stft_complex wav
    (init_kernel frame_len frame_hop window round_pow_of_two normalized false)
    (fft_points frame_len round_pow_of_two) frame_len frame_hop

/-- `inverse_stft(..., input="complex")` (utils.py 246-269): build the inverse
kernel with `init_kernel(..., inverse=True)` and call the inner transform.
`T` is the frame count of the input transform (`packed.shape[-1]`). -/
noncomputable def inverse_stft (sp : Spectra) (frame_len frame_hop : ℕ)
    (window : ℕ → ℝ) (round_pow_of_two normalized onesided : Bool)
    (T i : ℕ) : ℝ :=
  inverse_stft_complex sp
    (init_kernel frame_len frame_hop window round_pow_of_two normalized true)
    window (fft_points frame_len round_pow_of_two) frame_len frame_hop T onesided i

/-- Error taxonomy observable from the STFT engine's call surface. -/
inductive StftError where
  /-- `ValueError(f"Unknown output format: ...")` (utils.py 124-125). -/
  | valueError : String → StftError
  /-- `RuntimeError(f"STFT expect 2D/3D tensor, but got ...")` (utils.py 126-127). -/
  | shapeError : ℕ → StftError
  /-- The generic framework error raised by `tf.conv1d` when the padded input
  is shorter than the kernel; `_forward_stft` performs no sample-count check
  of its own. -/
  | convSizeError : StftError
  /-- `RuntimeError(f"Audio samples ... less than frame_len ...")`, raised
  only by `STFTBase.num_frames` (utils.py 304-306); the message prints the
  whole `num_samples` tensor. -/
  | insufficientSamples : List ℕ → StftError
  deriving DecidableEq

/-- Shape-level embedding of `STFT.forward` = `_forward_stft` (utils.py
108-151 and 313-332).  Checks happen in source order: output format first
(line 124), then tensor rank (line 126); the only constraint on the sample
count is the implicit `tf.conv1d` requirement that the input be at least as
long as the kernel.  On success, returns the shape `N x (C) x num_bins x T` of
the real (equivalently imaginary) component of the result, with
`num_bins = kernel.shape[0] // 4 + 1` when `onesided` (lines 140-143) and `B`
otherwise. -/
def forward_stft_shape (output : String) (shape : List ℕ)
    (frame_len frame_hop : ℕ) (round_pow_of_two onesided : Bool) :
    Except StftError (List ℕ) :=
  let B := fft_points frame_len round_pow_of_two
  let num_bins := if onesided then 2 * B / 4 + 1 else B
  if output ∉ ["polar", "complex", "real"] then .error (.valueError output)
  else if shape.length ∉ [2, 3] then .error (.shapeError shape.length)
  else
    let S := shape.getLastD 0
    if S < frame_len then .error .convSizeError
    else .ok (shape.dropLast ++ [num_bins, (S - frame_len) / frame_hop + 1])

/-- `STFTBase.num_frames` (utils.py 303-307): raises when any sample count is
`<= frame_len`, otherwise `(num_samples - frame_len) // frame_hop + 1`
elementwise. -/
def stft_num_frames (frame_len frame_hop : ℕ) (num_samples : List ℕ) :
    Except StftError (List ℕ) :=
  if num_samples.any (fun s => decide (s ≤ frame_len)) then
    .error (.insufficientSamples num_samples)
  else .ok (num_samples.map (fun s => (s - frame_len) / frame_hop + 1))

/-- The `num_bins` attribute set by `STFTBase.__init__` (utils.py line 297):
`K.shape[0] // 4 + 1`, independent of `onesided`. -/
def stftbase_num_bins (frame_len : ℕ) (round_pow_of_two : Bool) : ℕ :=
  2 * fft_points frame_len round_pow_of_two / 4 + 1

/-- Construction-time configuration consumed by `FeatureTransform.__init__`
(asr.py 340-363); only the fields that influence `feats_dim` and
`downsample_rate` are kept. -/
structure FeatCfg where
  frame_len : ℕ
  round_pow_of_two : Bool
  num_mels : ℕ
  num_ceps : ℕ
  lctx : ℕ
  rctx : ℕ
  ds_rate : ℕ
  delta_order : ℕ

/-- One iteration of the token loop of `FeatureTransform.__init__`
(asr.py 369-444), acting on the running `(feats_dim, downsample_rate)`
accumulator.  `spectrogram`, `fbank`, `mel` and `dct` assign `feats_dim` from
the appended stage; the `mfcc` branch (lines 390-405) appends four stages but
contains no `feats_dim` assignment; `splice` multiplies by `1 + lctx + rctx`
and sets `downsample_rate = ds_rate`; `delta` multiplies by
`1 + delta_order`; an unrecognized token raises `RuntimeError`. -/
def feat_token_step (cfg : FeatCfg) (acc : ℕ × ℕ) (tok : String) :
    Except String (ℕ × ℕ) :=
  let feats_dim := acc.1
  let downsample_rate := acc.2
  if tok = "spectrogram" then
    .ok (stftbase_num_bins cfg.frame_len cfg.round_pow_of_two, downsample_rate)
  else if tok = "fbank" then .ok (cfg.num_mels, downsample_rate)
  else if tok = "mfcc" then .ok (feats_dim, downsample_rate)
  else if tok = "mel" then .ok (cfg.num_mels, downsample_rate)
  else if tok = "log" then .ok (feats_dim, downsample_rate)
  else if tok = "abs" then .ok (feats_dim, downsample_rate)
  else if tok = "dct" then .ok (cfg.num_ceps, downsample_rate)
  else if tok = "cmvn" then .ok (feats_dim, downsample_rate)
  else if tok = "aug" then .ok (feats_dim, downsample_rate)
  else if tok = "splice" then
    .ok (feats_dim * (1 + cfg.lctx + cfg.rctx), cfg.ds_rate)
  else if tok = "delta" then
    .ok (feats_dim * (1 + cfg.delta_order), downsample_rate)
  else .error tok

/-- Python `str.split` with a single-character separator, by structural
recursion on the character list: every occurrence of `sep` ends a token, so
`n` separators yield `n + 1` tokens (empty tokens included). -/
def split_on_char (sep : Char) : List Char → List (List Char)
  | [] => [[]]
  | c :: cs =>
    let r := split_on_char sep cs
    if c = sep then [] :: r
    else
      match r with
      | [] => [[c]]
      | w :: ws => (c :: w) :: ws

/-- `feats.split("-")` (asr.py line 365). -/
def split_tokens (feats : String) : List String :=
  (split_on_char (Char.ofNat 45) feats.toList).map (fun w => String.mk w)

/-- The `(feats_dim, downsample_rate)` pair computed by
`FeatureTransform.__init__` (asr.py 364-447): fold the token steps over
`feats.split("-")`, starting from `feats_dim = 0`, `downsample_rate = 1`. -/
def feature_transform_dims (cfg : FeatCfg) (feats : String) :
    Except String (ℕ × ℕ) :=
  (split_tokens feats).foldlM (feat_token_step cfg) (0, 1)

/-- `LogTransform.forward` (asr.py 127-135) on one frame:
`th.log(th.clamp(x, min=eps))` builds a fresh tensor, so the pair
`(result, input buffer after the call)` leaves the input unchanged. -/
noncomputable def log_forward (eps : ℝ) (x : List ℝ) : List ℝ × List ℝ :=
  (x.map (fun v => Real.log (max v eps)), x)

/-- `CmvnTransform.forward` (asr.py 187-202) on one frame (the feature axis,
over which the mean/std reduction runs): with both flags off the input is
returned untouched; otherwise `x -= m` and `x /= th.clamp(s, min=EPSILON)`
are in-place tensor ops, so the returned `(result, input buffer after the
call)` pair has the buffer overwritten with the result.  `th.std` is the
unbiased estimator (divides by `n - 1`). -/
noncomputable def cmvn_forward (norm_mean norm_var : Bool) (x : List ℝ) :
    List ℝ × List ℝ :=
  if !norm_mean && !norm_var then (x, x)
  else
    let n : ℝ := x.length
    let m : ℝ := x.sum / n
    let s : ℝ := Real.sqrt ((x.map (fun v => (v - m) ^ 2)).sum / (n - 1))
    let x1 := if norm_mean then x.map (fun v => v - m) else x
    let x2 := if norm_var then x1.map (fun v => v / max s EPSILON) else x1
    (x2, x2)

/-- Elementwise sum of two frames (`+=` on equal-shaped tensors). -/
def vec_add (a b : List ℝ) : List ℝ := List.zipWith (· + ·) a b

/-- Elementwise difference of two frames. -/
def vec_sub (a b : List ℝ) : List ℝ := List.zipWith (· - ·) a b

/-- Scalar multiple of a frame. -/
noncomputable def vec_scale (c : ℝ) (a : List ℝ) : List ℝ := a.map (fun v => c * v)

/-- `DeltaTransform._add_delta` (asr.py 303-311).  The four in-place slice
updates amount, per output frame `t`, to
`dx[t] = (sum over i = 1..ctx of i * (x[min(t+i, T-1)] - x[max(t-i, 0)]))
/ (2 * sum of i^2)`: the first two updates handle interior indices and the
last two replicate the first/last frame at the edges, which is exactly
index clamping. -/
noncomputable def add_delta (ctx : ℕ) (x : List (List ℝ)) : List (List ℝ) :=
  let T := x.length
  let F := (x.headD []).length
  (List.range T).map (fun t =>
    vec_scale (1 / (2 * ∑ i ∈ Finset.range ctx, ((i : ℝ) + 1) ^ 2))
      (((List.range ctx).map (fun j =>
          let i : ℕ := j + 1
          vec_scale (i : ℝ)
            (vec_sub (x.getD (min (t + i) (T - 1)) [])
                     (x.getD (t - i) [])))).foldl vec_add
        (List.replicate F 0)))

/-- The band list built by `DeltaTransform.forward` (asr.py 320-322):
`delta = [x]`, then `order` times `delta.append(self._add_delta(delta[-1]))`,
so band `n` is the `n`-fold iterate of `_add_delta` on `x`. -/
noncomputable def delta_bands (ctx : ℕ) (x : List (List ℝ)) :
    ℕ → List (List (List ℝ))
  | 0 => [x]
  | n + 1 => delta_bands ctx x n ++ [(add_delta ctx)^[n + 1] x]

/-- `DeltaTransform.forward` (asr.py 313-324): concatenate all bands along the
feature axis (`th.cat(delta, -1)`). -/
noncomputable def delta_forward (ctx order : ℕ) (x : List (List ℝ)) :
    List (List ℝ) :=
  match delta_bands ctx x order with
  | [] => []
  | b :: bs => bs.foldl (fun acc band => List.zipWith (· ++ ·) acc band) b

/-- `DeltaTransform.dim_scale` (asr.py 300-301): returns `order`,
not `1 + order`. -/
def delta_dim_scale (order : ℕ) : ℕ := order

/-- Minimal IEEE-754 value model: a finite real, an infinity (the sign is
collapsed, since only non-finiteness matters in the expressions below), or
NaN.  Used where a claim is about float special values that the idealized
real-number embedding would erase. -/
inductive FP where
  | num : ℝ → FP
  | inf : FP
  | nan : FP

/-- IEEE division: NaN propagates; a nonzero finite over zero is an infinity;
`0 / 0` is NaN. -/
noncomputable def FP.div : FP → FP → FP
  | nan, _ => nan
  | _, nan => nan
  | num a, num b => if b = 0 then (if a = 0 then nan else inf) else num (a / b)
  | num _, inf => num 0
  | inf, num _ => inf
  | inf, inf => nan

/-- IEEE multiplication: NaN propagates; `0 * inf` is NaN. -/
noncomputable def FP.mul : FP → FP → FP
  | nan, _ => nan
  | _, nan => nan
  | num a, num b => num (a * b)
  | num a, inf => if a = 0 then nan else inf
  | inf, num b => if b = 0 then nan else inf
  | inf, inf => inf

/-- IEEE addition: NaN propagates. -/
noncomputable def FP.add : FP → FP → FP
  | nan, _ => nan
  | _, nan => nan
  | num a, num b => num (a + b)
  | _, _ => inf

/-- IEEE sine: finite at finite arguments, NaN at infinities and NaN. -/
noncomputable def FP.sin : FP → FP
  | num a => num (Real.sin a)
  | _ => nan

/-- Left fold of IEEE additions, as a tensor dot product performs. -/
noncomputable def FP.sum (l : List FP) : FP := l.foldl FP.add (FP.num 0)

/-- `init_dct` (utils.py 88-94): entry `(c, j)` of
`dct(np.eye(num_mels), norm="ortho")[:num_ceps]`.  Row `c` of `dct(np.eye(N))`
is the orthonormal DCT-II of the `c`-th standard basis vector, so entry
`(c, j)` is the `j`-th coefficient `alpha_j * cos(pi*j*(2c+1)/(2N))` with
`alpha_0 = sqrt(1/N)` and `alpha_j = sqrt(2/N)` otherwise. -/
noncomputable def init_dct (num_mels : ℕ) (c j : ℕ) : ℝ :=
  (if j = 0 then Real.sqrt (1 / num_mels) else Real.sqrt (2 / num_mels)) *
    Real.cos (Real.pi * j * (2 * c + 1) / (2 * num_mels))

/-- The cepstral-lifter coefficient at output index `c` (asr.py 148-149):
`1 + lifter * 0.5 * th.sin(math.pi * k / lifter)` with `k = c + 1` from
`th.arange(1, 1 + num_ceps)`, evaluated in float arithmetic. -/
noncomputable def cepstral_lifter (lifter : ℝ) (c : ℕ) : FP :=
  FP.add (FP.num 1)
    (FP.mul (FP.mul (FP.num lifter) (FP.num (1 / 2)))
      (FP.sin (FP.div (FP.mul (FP.num Real.pi) (FP.num ((c : ℝ) + 1)))
        (FP.num lifter))))

/-- `DiscreteCosineTransform.forward` (asr.py 160-169) at output index `c`:
`f = F.linear(x, self.dct)` followed by `f = f * self.cepstral_lifter`, in
float arithmetic. -/
noncomputable def dct_forward (num_mels : ℕ) (lifter : ℝ) (x : ℕ → FP)
    (c : ℕ) : FP :=
  FP.mul
    (FP.sum ((List.range num_mels).map
      (fun j => FP.mul (FP.num (init_dct num_mels c j)) (x j))))
    (cepstral_lifter lifter c)

/-! ### Arithmetic helpers -/

lemma clog2_400 : Nat.clog 2 400 = 9 :=
  le_antisymm ((Nat.le_pow_iff_clog_le one_lt_two).mp (by norm_num))
    ((Nat.pow_lt_iff_lt_clog one_lt_two).mp (by norm_num))

lemma fft_points_400 : fft_points 400 true = 512 := by
  simp [fft_points, clog2_400]

/-- A concrete configuration: the asr.py 340-363 defaults with `ds_rate = 2`
(`frame_len = 400`, `round_pow_of_two`, `num_mels = 80`, `num_ceps = 13`,
`lctx = rctx = 1`, `delta_order = 2`). -/
def cfgA : FeatCfg := ⟨400, true, 80, 13, 1, 1, 2, 2⟩

/-! ### C9 - frame counting -/

/-- **C9** (confirmed): `num_frames` returns
`floor((s - frame_len) / frame_hop) + 1` for every sample count strictly
greater than `frame_len`, fails with the insufficient-samples error whenever
any count is `≤ frame_len`, and `num_frames(16000) = 98` for
`frame_len = 400`, `frame_hop = 160`. -/
theorem num_frames_correct (frame_len frame_hop : ℕ) (num_samples : List ℕ) :
    ((∀ s ∈ num_samples, frame_len < s) →
      stft_num_frames frame_len frame_hop num_samples =
        .ok (num_samples.map (fun s => (s - frame_len) / frame_hop + 1)))
    ∧ ((∃ s ∈ num_samples, s ≤ frame_len) →
      stft_num_frames frame_len frame_hop num_samples =
        .error (.insufficientSamples num_samples))
    ∧ stft_num_frames 400 160 [16000] = .ok [98] := by
  refine ⟨fun h => ?_, fun ⟨s, hs, hle⟩ => ?_, rfl⟩
  · have hany : num_samples.any (fun s => decide (s ≤ frame_len)) = false := by
      simp only [List.any_eq_false, decide_eq_true_eq, not_le]
      exact fun s hs => h s hs
    simp [stft_num_frames, hany]
  · have hany : num_samples.any (fun s => decide (s ≤ frame_len)) = true := by
      simp only [List.any_eq_true, decide_eq_true_eq]
      exact ⟨s, hs, hle⟩
    simp [stft_num_frames, hany]

/-- Witness for `num_frames_correct`: the `16000`-sample utterance at
`frame_len = 400`, `frame_hop = 160`. -/
theorem num_frames_correct_witness :
    (∀ s ∈ [16000], 400 < s) ∧
      stft_num_frames 400 160 [16000] =
        .ok ([16000].map (fun s => (s - 400) / 160 + 1)) :=
  ⟨by decide, (num_frames_correct 400 160 [16000]).1 (by decide)⟩

/-! ### C4 - pipeline dimension tracking -/

/-- **C4** counterexample: the claim says the dct inside the `mfcc` compound
token resets `feats_dim` (here to `num_ceps = 13`); in the code the `mfcc`
branch appends its four stages without ever assigning `feats_dim`, so a
`"mfcc"` pipeline reports `feats_dim = 0`. -/
theorem mfcc_token_leaves_feats_dim_unset :
    feature_transform_dims cfgA "mfcc" = .ok (0, 1) ∧ cfgA.num_ceps = 13 :=
  ⟨rfl, rfl⟩

/-- **C4** (amended): pipeline construction overwrites `feats_dim` at the
`spectrogram` / `fbank` / `mel` / `dct` tokens, multiplies it at `splice`
(also setting `downsample_rate = ds_rate`) and at `delta`, while the `mfcc`
compound token leaves the accumulator untouched; `"fbank-log-cmvn"` with
`num_mels = 80` yields `(feats_dim, downsample_rate) = (80, 1)` and
`"fbank-log-splice"` with `lctx = rctx = 1`, `ds_rate = 2` yields
`(240, 2)`. -/
theorem feature_pipeline_dim_tracking (cfg : FeatCfg) (d ds : ℕ) :
    feat_token_step cfg (d, ds) "mfcc" = .ok (d, ds)
    ∧ feat_token_step cfg (d, ds) "spectrogram" =
        .ok (stftbase_num_bins cfg.frame_len cfg.round_pow_of_two, ds)
    ∧ feat_token_step cfg (d, ds) "fbank" = .ok (cfg.num_mels, ds)
    ∧ feat_token_step cfg (d, ds) "mel" = .ok (cfg.num_mels, ds)
    ∧ feat_token_step cfg (d, ds) "dct" = .ok (cfg.num_ceps, ds)
    ∧ feat_token_step cfg (d, ds) "splice" =
        .ok (d * (1 + cfg.lctx + cfg.rctx), cfg.ds_rate)
    ∧ feat_token_step cfg (d, ds) "delta" =
        .ok (d * (1 + cfg.delta_order), ds)
    ∧ feature_transform_dims cfgA "fbank-log-cmvn" = .ok (80, 1)
    ∧ feature_transform_dims cfgA "fbank-log-splice" = .ok (240, 2) :=
  ⟨rfl, rfl, rfl, rfl, rfl, rfl, rfl, rfl, rfl⟩

/-! ### C3 - forward error behavior -/

/-- **C3** counterexample: a rank-2 batch whose sample count `300` is below
`frame_len = 400` does not produce the insufficient-samples error (the claim
says every such batch must, listing the offending counts); the call dies
inside `tf.conv1d` instead. -/
theorem forward_short_input_no_sample_check :
    forward_stft_shape "complex" [1, 300] 400 160 false true =
      .error .convSizeError
    ∧ ∀ counts, forward_stft_shape "complex" [1, 300] 400 160 false true ≠
        .error (.insufficientSamples counts) := by
  refine ⟨rfl, fun counts h => ?_⟩
  rw [show forward_stft_shape "complex" [1, 300] 400 160 false true =
      .error .convSizeError from rfl] at h
  exact StftError.noConfusion (Except.error.inj h)

/-- **C3** (amended): with a valid output format, `STFT.forward` fails with
the shape error exactly when the input rank is not 2 or 3; it performs no
per-utterance sample-count check of its own - an input shorter than
`frame_len` surfaces as the generic convolution size error (the
insufficient-samples error listing sample counts is raised only by
`num_frames`) - and it succeeds otherwise. -/
theorem forward_stft_error_behavior (output : String) (shape : List ℕ)
    (frame_len frame_hop : ℕ) (rp os : Bool)
    (hfmt : output ∈ ["polar", "complex", "real"]) :
    (shape.length ∉ [2, 3] →
      forward_stft_shape output shape frame_len frame_hop rp os =
        .error (.shapeError shape.length))
    ∧ (shape.length ∈ [2, 3] → shape.getLastD 0 < frame_len →
      forward_stft_shape output shape frame_len frame_hop rp os =
        .error .convSizeError)
    ∧ (shape.length ∈ [2, 3] → frame_len ≤ shape.getLastD 0 →
      forward_stft_shape output shape frame_len frame_hop rp os =
        .ok (shape.dropLast ++
          [if os then 2 * fft_points frame_len rp / 4 + 1
            else fft_points frame_len rp,
           (shape.getLastD 0 - frame_len) / frame_hop + 1])) := by
  unfold forward_stft_shape
  rw [if_neg (not_not_intro hfmt)]
  refine ⟨fun h => ?_, fun h1 h2 => ?_, fun h1 h2 => ?_⟩
  · rw [if_pos h]
  · rw [if_neg (not_not_intro h1), if_pos h2]
  · rw [if_neg (not_not_intro h1), if_neg (not_lt.mpr h2)]

/-- Witness for `forward_stft_error_behavior`: a rank-1 tensor with the
`complex` output format yields the shape error. -/
theorem forward_stft_error_behavior_witness :
    ("complex" ∈ ["polar", "complex", "real"]) ∧
      ([(7 : ℕ)].length ∉ [2, 3]) ∧
      forward_stft_shape "complex" [7] 4 2 false false =
        .error (.shapeError 1) :=
  ⟨by decide, by decide,
    (forward_stft_error_behavior "complex" [7] 4 2 false false
      (by decide)).1 (by decide)⟩

/-! ### C7 - exposed bin count -/

/-- **C7** (confirmed): the forward transform exposes `B / 2 + 1` frequency
bins when `onesided` and `B` bins otherwise, and for `frame_len = 400` with
`round_pow_of_two` the FFT size is `B = 512`, with one-sided bin count `257`.
(The `num_bins` attribute of `STFTBase` is `B / 2 + 1` regardless of
`onesided`; the bins exposed in the forward output follow the claim.) -/
theorem stft_output_num_bins (output : String) (N S frame_len frame_hop : ℕ)
    (rp os : Bool) (hfmt : output ∈ ["polar", "complex", "real"])
    (hS : frame_len ≤ S) :
    forward_stft_shape output [N, S] frame_len frame_hop rp os =
      .ok [N,
        if os then fft_points frame_len rp / 2 + 1 else fft_points frame_len rp,
        (S - frame_len) / frame_hop + 1]
    ∧ fft_points 400 true = 512
    ∧ forward_stft_shape "complex" [1, 16000] 400 160 true true =
        .ok [1, 257, 98] := by
  have h24 : ∀ B : ℕ, 2 * B / 4 = B / 2 := fun B => by
    have : 2 * B / 4 = 2 * B / (2 * 2) := by norm_num
    rw [this, Nat.mul_div_mul_left B 2 (by norm_num)]
  refine ⟨?_, fft_points_400, ?_⟩
  · unfold forward_stft_shape
    rw [if_neg (not_not_intro hfmt)]
    have h1 : ([N, S] : List ℕ).length ∈ [2, 3] := by simp
    rw [if_neg (not_not_intro h1)]
    have h2 : ¬(([N, S] : List ℕ).getLastD 0 < frame_len) := by
      simpa using not_lt.mpr hS
    rw [if_neg h2]
    simp [h24]
  · unfold forward_stft_shape
    rw [fft_points_400]
    rfl

/-- Witness for `stft_output_num_bins`: the `16000`-sample utterance,
`frame_len = 400`, `frame_hop = 160`, one-sided, no power-of-two rounding. -/
theorem stft_output_num_bins_witness :
    ("complex" ∈ ["polar", "complex", "real"]) ∧ (400 : ℕ) ≤ 16000 ∧
      forward_stft_shape "complex" [1, 16000] 400 160 false true =
        .ok [1, if true then fft_points 400 false / 2 + 1 else fft_points 400 false,
          (16000 - 400) / 160 + 1] :=
  ⟨by decide, by decide,
    (stft_output_num_bins "complex" 1 16000 400 160 false true (by decide)
      (by decide)).1⟩

/-! ### C5 - stage purity / in-place mutation -/

/-- **C5** counterexample: `CmvnTransform.forward` with `norm_mean = True`
mutates its input in place - after the call on the frame `[0, 2]` the
caller's buffer holds `[-1, 1]`, not the original contents. -/
theorem cmvn_forward_mutates_input :
    (cmvn_forward true false [0, 2]).2 = [-1, 1]
    ∧ ([(-1 : ℝ), 1] ≠ [0, 2]) := by
  constructor
  · simp [cmvn_forward]
    norm_num
  · norm_num

/-- **C5** (amended): `LogTransform.forward` builds a fresh tensor and leaves
the caller's buffer unchanged, as does `CmvnTransform.forward` with both
normalization flags off; but with a flag set, `CmvnTransform.forward`
overwrites the input buffer with its output (the in-place `x -= m`,
`x /= clamp(s, min=EPSILON)`). -/
theorem log_pure_cmvn_inplace (eps : ℝ) (x : List ℝ) (nm nv : Bool) :
    (log_forward eps x).2 = x
    ∧ (cmvn_forward false false x).2 = x
    ∧ (cmvn_forward nm nv x).2 = (cmvn_forward nm nv x).1 := by
  refine ⟨rfl, rfl, ?_⟩
  unfold cmvn_forward
  cases nm <;> cases nv <;> simp

/-! ### C10 - delta stage dimensions -/

lemma vec_add_length (a b : List ℝ) : (vec_add a b).length = min a.length b.length :=
  List.length_zipWith ..

lemma vec_sub_length (a b : List ℝ) : (vec_sub a b).length = min a.length b.length :=
  List.length_zipWith ..

lemma vec_scale_length (c : ℝ) (a : List ℝ) : (vec_scale c a).length = a.length := by
  simp [vec_scale]

lemma foldl_vec_add_length (l : List (List ℝ)) (init : List ℝ)
    (h : ∀ a ∈ l, init.length ≤ a.length) :
    (l.foldl vec_add init).length = init.length := by
  induction l generalizing init with
  | nil => rfl
  | cons a l ih =>
    rw [List.foldl_cons]
    have hlen : (vec_add init a).length = init.length := by
      rw [vec_add_length]
      exact min_eq_left (h a (by simp))
    rw [ih (vec_add init a) (fun b hb => by rw [hlen]; exact h b (by simp [hb])),
      hlen]

lemma add_delta_length (ctx : ℕ) (x : List (List ℝ)) :
    (add_delta ctx x).length = x.length := by
  simp [add_delta]

lemma getD_length_of_frames {x : List (List ℝ)} {F : ℕ}
    (hx : ∀ fr ∈ x, fr.length = F) {i : ℕ} (hi : i < x.length) :
    (x.getD i []).length = F := by
  have hg : x.getD i [] = x[i] := by
    simp [List.getD_eq_getElem?_getD, List.getElem?_eq_getElem hi]
  rw [hg]
  exact hx _ (List.getElem_mem hi)

lemma add_delta_frames (ctx F : ℕ) (x : List (List ℝ)) (hne : x ≠ [])
    (hx : ∀ fr ∈ x, fr.length = F) :
    ∀ fr ∈ add_delta ctx x, fr.length = F := by
  intro fr hfr
  have hT : 0 < x.length := List.length_pos.mpr hne
  have hhead : (x.headD []).length = F := by
    cases x with
    | nil => exact absurd rfl hne
    | cons y ys => exact hx y (by simp)
  simp only [add_delta, List.mem_map, List.mem_range] at hfr
  obtain ⟨t, ht, rfl⟩ := hfr
  rw [vec_scale_length, foldl_vec_add_length, List.length_replicate, hhead]
  intro a ha
  simp only [List.mem_map, List.mem_range] at ha
  obtain ⟨j, hj, rfl⟩ := ha
  rw [List.length_replicate, hhead, vec_scale_length, vec_sub_length]
  have h1 : (x.getD (min (t + (j + 1)) (x.length - 1)) []).length = F :=
    getD_length_of_frames hx (lt_of_le_of_lt (min_le_right _ _) (by omega))
  have h2 : (x.getD (t - (j + 1)) []).length = F :=
    getD_length_of_frames hx (by omega)
  rw [h1, h2, min_self]

lemma iterate_add_delta_shape (ctx F : ℕ) (x : List (List ℝ)) (hne : x ≠ [])
    (hx : ∀ fr ∈ x, fr.length = F) (n : ℕ) :
    ((add_delta ctx)^[n] x).length = x.length ∧
      ∀ fr ∈ (add_delta ctx)^[n] x, fr.length = F := by
  induction n with
  | zero => exact ⟨rfl, hx⟩
  | succ n ih =>
    rw [Function.iterate_succ_apply']
    have hne' : (add_delta ctx)^[n] x ≠ [] := by
      intro h
      have hl := ih.1
      rw [h, List.length_nil] at hl
      exact hne (List.length_eq_zero.mp hl.symm)
    exact ⟨by rw [add_delta_length, ih.1],
      add_delta_frames ctx F _ hne' ih.2⟩

lemma delta_bands_eq_cons (ctx : ℕ) (x : List (List ℝ)) :
    ∀ n, ∃ bs, delta_bands ctx x n = x :: bs
  | 0 => ⟨[], rfl⟩
  | n + 1 => by
    obtain ⟨bs, hbs⟩ := delta_bands_eq_cons ctx x n
    refine ⟨bs ++ [(add_delta ctx)^[n + 1] x], ?_⟩
    rw [show delta_bands ctx x (n + 1) =
        delta_bands ctx x n ++ [(add_delta ctx)^[n + 1] x] from rfl, hbs,
      List.cons_append]

lemma delta_forward_succ (ctx n : ℕ) (x : List (List ℝ)) :
    delta_forward ctx (n + 1) x =
      List.zipWith (fun u v => u ++ v) (delta_forward ctx n x)
        ((add_delta ctx)^[n + 1] x) := by
  obtain ⟨bs, hbs⟩ := delta_bands_eq_cons ctx x n
  unfold delta_forward
  rw [show delta_bands ctx x (n + 1) =
      delta_bands ctx x n ++ [(add_delta ctx)^[n + 1] x] from rfl, hbs,
    List.cons_append]
  simp [List.foldl_append]

lemma frames_zipWith_append {a b : List (List ℝ)} {Fa Fb : ℕ}
    (ha : ∀ fr ∈ a, fr.length = Fa) (hb : ∀ fr ∈ b, fr.length = Fb) :
    ∀ fr ∈ List.zipWith (fun u v => u ++ v) a b, fr.length = Fa + Fb := by
  induction a generalizing b with
  | nil => intro fr hfr; simp at hfr
  | cons u a ih =>
    cases b with
    | nil => intro fr hfr; simp at hfr
    | cons v b =>
      intro fr hfr
      rw [List.zipWith_cons_cons] at hfr
      rcases List.mem_cons.mp hfr with h | h
      · subst h
        rw [List.length_append, ha u (by simp), hb v (by simp)]
      · exact ih (fun fr h => ha fr (by simp [h]))
          (fun fr h => hb fr (by simp [h])) fr h

lemma delta_forward_shape (ctx F : ℕ) (x : List (List ℝ)) (hne : x ≠ [])
    (hx : ∀ fr ∈ x, fr.length = F) (order : ℕ) :
    (delta_forward ctx order x).length = x.length ∧
      ∀ fr ∈ delta_forward ctx order x, fr.length = (1 + order) * F := by
  induction order with
  | zero =>
    refine ⟨rfl, ?_⟩
    simpa using hx
  | succ n ih =>
    rw [delta_forward_succ]
    have hiter := iterate_add_delta_shape ctx F x hne hx (n + 1)
    refine ⟨?_, ?_⟩
    · rw [List.length_zipWith, ih.1, hiter.1, min_self]
    · intro fr hfr
      rw [frames_zipWith_append ih.2 hiter.2 fr hfr]
      ring

/-- **C10** (confirmed): for every `order ≥ 1`, `DeltaTransform.forward`
widens every frame from `F` to `(1 + order) * F` features (the original plus
`order` derivative bands), while `dim_scale()` reports `order`, not
`1 + order`; the pipeline compensates by multiplying `feats_dim` by
`(1 + delta_order)` directly instead of calling `dim_scale()`. -/
theorem delta_width_vs_dim_scale (ctx order F : ℕ) (x : List (List ℝ))
    (horder : 1 ≤ order) (hne : x ≠ []) (hx : ∀ fr ∈ x, fr.length = F) :
    (∀ fr ∈ delta_forward ctx order x, fr.length = (1 + order) * F)
    ∧ delta_dim_scale order = order
    ∧ (∀ cfg : FeatCfg, ∀ d ds : ℕ,
        feat_token_step cfg (d, ds) "delta" =
          .ok (d * (1 + cfg.delta_order), ds)) :=
  ⟨(delta_forward_shape ctx F x hne hx order).2, rfl, fun _ _ _ => rfl⟩

/-- Witness for `delta_width_vs_dim_scale`: a single 2-feature frame with
`ctx = 2`, `order = 2` widens to `6 = (1 + 2) * 2` features. -/
theorem delta_width_vs_dim_scale_witness :
    (1 ≤ 2) ∧ ([[(1 : ℝ), 0]] ≠ ([] : List (List ℝ)))
    ∧ (∀ fr ∈ [[(1 : ℝ), 0]], fr.length = 2)
    ∧ ∀ fr ∈ delta_forward 2 2 [[(1 : ℝ), 0]], fr.length = (1 + 2) * 2 :=
  ⟨by norm_num, by simp, by simp,
    (delta_width_vs_dim_scale 2 2 2 [[(1 : ℝ), 0]] (by norm_num) (by simp)
      (by simp)).1⟩

/-! ### C2 - cepstral lifter at lifter = 0 -/

lemma fp_mul_nan (a : FP) : FP.mul a FP.nan = FP.nan := by
  cases a <;> rfl

lemma cepstral_lifter_zero_nan (c : ℕ) : cepstral_lifter 0 c = FP.nan := by
  have hne : Real.pi * ((c : ℝ) + 1) ≠ 0 :=
    mul_ne_zero Real.pi_ne_zero (by positivity)
  have hdiv : FP.div (FP.num (Real.pi * ((c : ℝ) + 1))) (FP.num 0) = FP.inf := by
    simp [FP.div, hne]
  unfold cepstral_lifter
  rw [show FP.mul (FP.num Real.pi) (FP.num ((c : ℝ) + 1)) =
      FP.num (Real.pi * ((c : ℝ) + 1)) from rfl, hdiv]
  rfl

/-- **C2** (code bug): constructed with `lifter = 0`, the lifter vector is
`1 + 0 * 0.5 * sin(pi * k / 0)`: the float division by zero yields an
infinity, its sine NaN, and `0 * NaN = NaN`, so every lifter coefficient -
and hence every entry of `DiscreteCosineTransform.forward(x)` - is NaN, for
every input.  The claimed no-op at `lifter = 0` (plain truncated DCT, no
NaN/Inf) is the evident intent: liftering is conventionally disabled at
`lifter = 0` and `lifter = 0` is the class (and pipeline) default, which as
written makes the default mfcc pipeline produce all-NaN features. -/
theorem dct_forward_lifter_zero_nan (num_mels num_ceps : ℕ) (x : ℕ → FP)
    (c : ℕ) (hc : c < num_ceps) :
    dct_forward num_mels 0 x c = FP.nan ∧ cepstral_lifter 0 c = FP.nan :=
  ⟨by rw [dct_forward, cepstral_lifter_zero_nan]; exact fp_mul_nan _,
   cepstral_lifter_zero_nan c⟩

/-- Witness for `dct_forward_lifter_zero_nan`: the first cepstral coefficient
of a zero input frame at `num_mels = 40`, `num_ceps = 13`, `lifter = 0`. -/
theorem dct_forward_lifter_zero_nan_witness :
    (0 < 13) ∧ dct_forward 40 0 (fun _ => FP.num 0) 0 = FP.nan :=
  ⟨by norm_num,
    (dct_forward_lifter_zero_nan 40 13 (fun _ => FP.num 0) 0 (by norm_num)).1⟩

/-! ### C8 - kernel construction -/

/-- The scale factor asserted by the spec for the transform kernel:
`1/sqrt(B)` when `normalized` (both directions), `1/B` when `inverse` and
unnormalized, `1` otherwise. -/
noncomputable def kernel_scale (normalized inverse : Bool) (B : ℕ) : ℝ :=
  if normalized then 1 / Real.sqrt B else if inverse then 1 / (B : ℝ) else 1

/-- The unscaled, unwindowed basis entry of the `[2B, 1, frame_len]` kernel:
the `B` cosine (real) planes come first, then the `B` sine (imaginary)
planes. -/
noncomputable def kernel_basis (B p m : ℕ) : ℝ :=
  if p < B then Real.cos (2 * Real.pi * p * m / B)
  else -Real.sin (2 * Real.pi * (p - B) * m / B)

lemma init_kernel_eq (frame_len frame_hop : ℕ) (window : ℕ → ℝ)
    (rp normalized inverse : Bool) (p m : ℕ)
    (hB : 0 < fft_points frame_len rp)
    (hp : p < 2 * fft_points frame_len rp) :
    init_kernel frame_len frame_hop window rp normalized inverse p m =
      kernel_scale normalized inverse (fft_points frame_len rp) *
        kernel_basis (fft_points frame_len rp) p m * window m := by
  unfold init_kernel kernel_scale kernel_basis fft_identity_re fft_identity_im
  by_cases hpB : p < fft_points frame_len rp
  · have hdiv : p / fft_points frame_len rp = 0 := Nat.div_eq_of_lt hpB
    have hmod : p % fft_points frame_len rp = p := Nat.mod_eq_of_lt hpB
    simp only [hdiv, hmod, if_pos rfl, if_pos hpB]
    cases normalized <;> cases inverse <;>
      simp only [Bool.not_false, Bool.not_true, Bool.and_false, Bool.and_true,
        Bool.false_and, Bool.true_and, if_false, if_true, Bool.false_eq_true,
        ite_true, ite_false] <;>
      ring
  · have hle : fft_points frame_len rp ≤ p := not_lt.mp hpB
    have hdiv : ¬(p / fft_points frame_len rp = 0) := by
      rw [Nat.div_eq_zero_iff hB]
      exact hpB
    have hmod : p % fft_points frame_len rp = p - fft_points frame_len rp := by
      rw [Nat.mod_eq_sub_mod hle, Nat.mod_eq_of_lt (by omega)]
    simp only [hmod, if_neg hdiv, if_neg hpB, Nat.cast_sub hle]
    cases normalized <;> cases inverse <;>
      simp only [Bool.not_false, Bool.not_true, Bool.and_false, Bool.and_true,
        Bool.false_and, Bool.true_and, if_false, if_true, Bool.false_eq_true,
        ite_true, ite_false] <;>
      ring

/-- **C8** (confirmed): each entry of the `[2B, 1, frame_len]` kernel built
by `init_kernel` is the claimed scale factor (`1/sqrt(B)` when `normalized`,
for both directions; `1/B` when `inverse` and unnormalized; `1` otherwise)
times the basis (cosine planes `p < B` first, then the negated-sine planes)
times the window coefficient at its position. -/
theorem init_kernel_scaling (frame_len frame_hop : ℕ) (window : ℕ → ℝ)
    (rp normalized inverse : Bool) (p m : ℕ)
    (hB : 0 < fft_points frame_len rp)
    (hp : p < 2 * fft_points frame_len rp) :
    init_kernel frame_len frame_hop window rp normalized inverse p m =
      (if normalized then 1 / Real.sqrt (fft_points frame_len rp)
       else if inverse then 1 / (fft_points frame_len rp : ℝ) else 1) *
      (if p < fft_points frame_len rp then
        Real.cos (2 * Real.pi * p * m / (fft_points frame_len rp : ℝ))
       else
        -Real.sin (2 * Real.pi * ((p : ℝ) - (fft_points frame_len rp : ℝ)) * m /
          (fft_points frame_len rp : ℝ))) * window m := by
  rw [init_kernel_eq frame_len frame_hop window rp normalized inverse p m hB hp,
    kernel_scale, kernel_basis]

/-- Witness for `init_kernel_scaling`: the imaginary plane `p = 5` of the
unnormalized inverse kernel at `frame_len = B = 4`. -/
theorem init_kernel_scaling_witness :
    (0 < fft_points 4 false) ∧ (5 < 2 * fft_points 4 false) ∧
      init_kernel 4 2 (fun _ => 1) false false true 5 1 =
        1 / (fft_points 4 false : ℝ) *
          -Real.sin (2 * Real.pi * (((5 : ℕ) : ℝ) - (fft_points 4 false : ℝ)) *
            ((1 : ℕ) : ℝ) / (fft_points 4 false : ℝ)) * 1 := by
  refine ⟨by decide, by decide, ?_⟩
  rw [init_kernel_scaling 4 2 (fun _ => 1) false false true 5 1 (by decide)
    (by decide)]
  norm_num [fft_points]

/-! ### C6 - zero-denominator guard -/

/-- **C6** (confirmed): after the transposed-convolution overlap-add, the
inverse STFT divides elementwise by the accumulated squared-window
denominator except where that denominator is exactly zero, where the raw
accumulated sample is returned unchanged; where it divides, it genuinely
divides (multiplying back by the nonzero denominator recovers the raw
sample), so no division by zero is ever performed. -/
theorem istft_zero_denominator_guard (sp : Spectra) (kernel : ℕ → ℕ → ℝ)
    (window : ℕ → ℝ) (B frame_len frame_hop T : ℕ) (onesided : Bool)
    (i : ℕ) :
    (istft_norm window frame_len frame_hop T i = 0 →
      inverse_stft_complex sp kernel window B frame_len frame_hop T onesided i =
        istft_raw sp kernel B frame_len frame_hop T onesided i)
    ∧ (istft_norm window frame_len frame_hop T i ≠ 0 →
      inverse_stft_complex sp kernel window B frame_len frame_hop T onesided i *
          istft_norm window frame_len frame_hop T i =
        istft_raw sp kernel B frame_len frame_hop T onesided i) := by
  unfold inverse_stft_complex
  constructor
  · intro h
    rw [if_pos h]
  · intro h
    rw [if_neg h]
    exact div_mul_cancel₀ _ h

/-- Witness for `istft_zero_denominator_guard`: with no frames (`T = 0`) the
denominator is identically zero and the raw sample is passed through. -/
theorem istft_zero_denominator_guard_witness :
    istft_norm (fun _ => 1) 2 1 0 0 = 0 ∧
      inverse_stft_complex ⟨fun _ _ => 1, fun _ _ => 1⟩ (fun _ _ => 1)
          (fun _ => 1) 2 2 1 0 false 0 =
        istft_raw ⟨fun _ _ => 1, fun _ _ => 1⟩ (fun _ _ => 1) 2 2 1 0
          false 0 := by
  have h0 : istft_norm (fun _ => (1 : ℝ)) 2 1 0 0 = 0 := by
    simp [istft_norm, conv_transpose1d]
  exact ⟨h0,
    (istft_zero_denominator_guard ⟨fun _ _ => 1, fun _ _ => 1⟩ (fun _ _ => 1)
      (fun _ => 1) 2 2 1 0 false 0).1 h0⟩

/-! ### C1 - round-trip reconstruction: trigonometric groundwork -/

lemma kernel_cos_symm (B j m : ℕ) (hj : j ≤ B) (hB : 0 < B) :
    Real.cos (2 * Real.pi * ((B - j : ℕ) : ℝ) * m / B) =
      Real.cos (2 * Real.pi * j * m / B) := by
  have hBne : (B : ℝ) ≠ 0 := Nat.cast_ne_zero.mpr hB.ne'
  rw [Nat.cast_sub hj]
  have h1 : 2 * Real.pi * ((B : ℝ) - j) * m / B =
      (m : ℝ) * (2 * Real.pi) - 2 * Real.pi * j * m / B := by
    field_simp
    ring
  rw [h1, Real.cos_nat_mul_two_pi_sub]

lemma kernel_sin_symm (B j m : ℕ) (hj : j ≤ B) (hB : 0 < B) :
    Real.sin (2 * Real.pi * ((B - j : ℕ) : ℝ) * m / B) =
      -Real.sin (2 * Real.pi * j * m / B) := by
  have hBne : (B : ℝ) ≠ 0 := Nat.cast_ne_zero.mpr hB.ne'
  rw [Nat.cast_sub hj]
  have h1 : 2 * Real.pi * ((B : ℝ) - j) * m / B =
      (m : ℝ) * (2 * Real.pi) - 2 * Real.pi * j * m / B := by
    field_simp
    ring
  rw [h1, Real.sin_nat_mul_two_pi_sub]

lemma sum_cos_eq_zero (B : ℕ) (hB : 0 < B) (d : ℤ) (hnd : ¬((B : ℤ) ∣ d)) :
    ∑ k ∈ Finset.range B, Real.cos (2 * Real.pi * d / B * k) = 0 := by
  have hBne : (B : ℝ) ≠ 0 := Nat.cast_ne_zero.mpr hB.ne'
  set θ : ℝ := 2 * Real.pi * d / B with hθ
  have hBC : (B : ℂ) ≠ 0 := by exact_mod_cast hBne
  have hr1 : Complex.exp (θ * Complex.I) ≠ 1 := by
    intro h1eq
    rw [Complex.exp_eq_one_iff] at h1eq
    obtain ⟨n, hn⟩ := h1eq
    have h2 : (θ : ℂ) * Complex.I = (((n : ℝ) * (2 * Real.pi) : ℝ) : ℂ) * Complex.I := by
      rw [hn]
      push_cast
      ring
    have h3 : θ = (n : ℝ) * (2 * Real.pi) := by
      exact_mod_cast mul_right_cancel₀ Complex.I_ne_zero h2
    rw [hθ] at h3
    have h6 : (2 * Real.pi) * (d : ℝ) = (2 * Real.pi) * ((n : ℝ) * (B : ℝ)) := by
      field_simp at h3
      linear_combination h3
    have h7 := mul_left_cancel₀ (by positivity : (2 : ℝ) * Real.pi ≠ 0) h6
    have h8 : d = n * B := by exact_mod_cast h7
    exact hnd ⟨n, by rw [h8]; ring⟩
  have hsum : ∑ k ∈ Finset.range B, Complex.exp (θ * Complex.I) ^ k = 0 := by
    rw [geom_sum_eq hr1]
    have hpow : Complex.exp (θ * Complex.I) ^ B = 1 := by
      rw [← Complex.exp_nat_mul]
      have harg : (B : ℂ) * ((θ : ℂ) * Complex.I) =
          (d : ℂ) * (2 * (Real.pi : ℂ) * Complex.I) := by
        rw [hθ]
        push_cast
        field_simp
        ring_nf
      rw [harg]
      exact_mod_cast Complex.exp_int_mul_two_pi_mul_I d
    rw [hpow, sub_self, zero_div]
  have hre := congrArg Complex.re hsum
  rw [Complex.re_sum] at hre
  rw [show (0 : ℝ) = Complex.re 0 from rfl, ← hre]
  apply Finset.sum_congr rfl
  intro k _
  rw [← Complex.exp_nat_mul]
  have harg : (k : ℂ) * ((θ : ℂ) * Complex.I) = ((θ * k : ℝ) : ℂ) * Complex.I := by
    push_cast
    ring
  rw [harg, Complex.exp_ofReal_mul_I_re]

lemma dft_orthogonality (B : ℕ) (hB : 0 < B) (a b : ℕ) (ha : a < B) (hb : b < B) :
    ∑ k ∈ Finset.range B,
      (Real.cos (2 * Real.pi * k * a / B) * Real.cos (2 * Real.pi * k * b / B) +
        Real.sin (2 * Real.pi * k * a / B) * Real.sin (2 * Real.pi * k * b / B)) =
    if a = b then (B : ℝ) else 0 := by
  have hBne : (B : ℝ) ≠ 0 := Nat.cast_ne_zero.mpr hB.ne'
  have hterm : ∀ k : ℕ,
      Real.cos (2 * Real.pi * k * a / B) * Real.cos (2 * Real.pi * k * b / B) +
        Real.sin (2 * Real.pi * k * a / B) * Real.sin (2 * Real.pi * k * b / B) =
      Real.cos (2 * Real.pi * (((a : ℤ) - b : ℤ) : ℝ) / B * k) := by
    intro k
    rw [← Real.cos_sub]
    congr 1
    push_cast
    field_simp
    ring
  by_cases hab : a = b
  · subst hab
    rw [if_pos rfl]
    rw [Finset.sum_congr rfl (fun k _ => hterm k)]
    have : ∀ k ∈ Finset.range B,
        Real.cos (2 * Real.pi * (((a : ℤ) - a : ℤ) : ℝ) / B * k) = 1 := by
      intro k _
      simp
    rw [Finset.sum_congr rfl this, Finset.sum_const, Finset.card_range,
      nsmul_eq_mul, mul_one]
  · rw [if_neg hab]
    rw [Finset.sum_congr rfl (fun k _ => hterm k)]
    apply sum_cos_eq_zero B hB ((a : ℤ) - b)
    rintro ⟨c, hc⟩
    rcases lt_trichotomy c 0 with hc0 | hc0 | hc0
    · have : (B : ℤ) * c ≤ -B := by
        have h1 : c ≤ -1 := by omega
        nlinarith [Int.natCast_pos.mpr hB]
      omega
    · subst hc0
      simp at hc
      omega
    · have : (B : ℤ) ≤ B * c := by
        have h1 : 1 ≤ c := hc0
        nlinarith [Int.natCast_pos.mpr hB]
      omega

lemma init_kernel_cos (frame_len frame_hop : ℕ) (w : ℕ → ℝ) (rp nrm inv : Bool)
    (k m : ℕ) (hk : k < fft_points frame_len rp) (hB : 0 < fft_points frame_len rp) :
    init_kernel frame_len frame_hop w rp nrm inv k m =
      kernel_scale nrm inv (fft_points frame_len rp) *
        Real.cos (2 * Real.pi * k * m / (fft_points frame_len rp : ℝ)) * w m := by
  rw [init_kernel_eq frame_len frame_hop w rp nrm inv k m hB (by omega),
    kernel_basis, if_pos hk]

lemma init_kernel_sin (frame_len frame_hop : ℕ) (w : ℕ → ℝ) (rp nrm inv : Bool)
    (k m : ℕ) (hk : k < fft_points frame_len rp) (hB : 0 < fft_points frame_len rp) :
    init_kernel frame_len frame_hop w rp nrm inv (fft_points frame_len rp + k) m =
      kernel_scale nrm inv (fft_points frame_len rp) *
        (-Real.sin (2 * Real.pi * k * m / (fft_points frame_len rp : ℝ))) * w m := by
  rw [init_kernel_eq frame_len frame_hop w rp nrm inv _ m hB (by omega),
    kernel_basis, if_neg (by omega)]
  congr 3
  push_cast
  ring

lemma kernel_scale_mul (nrm : Bool) (B : ℕ) (hB : 0 < B) :
    kernel_scale nrm false B * kernel_scale nrm true B = 1 / (B : ℝ) := by
  have hBpos : (0 : ℝ) < B := by exact_mod_cast hB
  cases nrm
  · simp [kernel_scale]
  · simp only [kernel_scale, if_true, ite_true]
    rw [div_mul_div_comm, one_mul, Real.mul_self_sqrt hBpos.le]

lemma istft_norm_eq (w : ℕ → ℝ) (frame_len frame_hop T i : ℕ) :
    istft_norm w frame_len frame_hop T i =
      ∑ t ∈ Finset.range T,
        (if t * frame_hop ≤ i ∧ i < t * frame_hop + frame_len then
          w (i - t * frame_hop) ^ 2 else 0) := by
  unfold istft_norm conv_transpose1d
  apply Finset.sum_congr rfl
  intro t _
  by_cases hcov : t * frame_hop ≤ i ∧ i < t * frame_hop + frame_len
  · rw [if_pos hcov]
    have hoff : i - t * frame_hop ∈ Finset.range frame_len := by
      rw [Finset.mem_range]
      omega
    calc ∑ c ∈ Finset.range frame_len,
          (if t * frame_hop ≤ i ∧ i < t * frame_hop + frame_len then
            w c ^ 2 * (if c = i - t * frame_hop then 1 else 0) else 0)
        = ∑ c ∈ Finset.range frame_len,
            (if c = i - t * frame_hop then w c ^ 2 else 0) := by
          apply Finset.sum_congr rfl
          intro c _
          rw [if_pos hcov, mul_ite, mul_one, mul_zero]
      _ = w (i - t * frame_hop) ^ 2 := by
          rw [Finset.sum_ite_eq' (Finset.range frame_len), if_pos hoff]
  · rw [if_neg hcov]
    apply Finset.sum_eq_zero
    intro c _
    rw [if_neg hcov]

lemma istft_packed_twosided (frame_len frame_hop : ℕ) (rp nrm : Bool)
    (w x : ℕ → ℝ) (p t : ℕ)
    (hB : 0 < fft_points frame_len rp) (hp : p < 2 * fft_points frame_len rp)
    (hB2 : 2 ∣ fft_points frame_len rp) :
    istft_packed (forward_stft x frame_len frame_hop w rp nrm)
        (fft_points frame_len rp) true p t =
      istft_packed (forward_stft x frame_len frame_hop w rp nrm)
        (fft_points frame_len rp) false p t := by
  set B := fft_points frame_len rp with hBdef
  have h2nb : 2 * (2 * B / 4 + 1) - 2 = B := by
    obtain ⟨b, hb⟩ := hB2
    omega
  simp only [istft_packed, if_true, ite_true, Bool.false_eq_true, if_false,
    ite_false]
  by_cases hpB : p < B
  · rw [if_pos hpB, if_pos hpB]
    unfold onesided_extend
    by_cases hpn : p < 2 * B / 4 + 1
    · rw [if_pos hpn]
    · rw [if_neg hpn, one_mul, h2nb]
      show conv1d x (init_kernel frame_len frame_hop w rp nrm false)
          frame_len frame_hop (B - p) t =
        conv1d x (init_kernel frame_len frame_hop w rp nrm false)
          frame_len frame_hop p t
      unfold conv1d
      apply Finset.sum_congr rfl
      intro m _
      rw [init_kernel_cos frame_len frame_hop w rp nrm false (B - p) m
          (by omega) hB,
        init_kernel_cos frame_len frame_hop w rp nrm false p m hpB hB,
        kernel_cos_symm B p m (le_of_lt hpB) hB]
  · rw [if_neg hpB, if_neg hpB]
    have hjB : p - B < B := by omega
    unfold onesided_extend
    by_cases hpn : p - B < 2 * B / 4 + 1
    · rw [if_pos hpn]
    · rw [if_neg hpn, h2nb]
      have him : (forward_stft x frame_len frame_hop w rp nrm).im
            (B - (p - B)) t =
          -(forward_stft x frame_len frame_hop w rp nrm).im (p - B) t := by
        show conv1d x (init_kernel frame_len frame_hop w rp nrm false)
            frame_len frame_hop (B + (B - (p - B))) t =
          -conv1d x (init_kernel frame_len frame_hop w rp nrm false)
            frame_len frame_hop (B + (p - B)) t
        unfold conv1d
        rw [← Finset.sum_neg_distrib]
        apply Finset.sum_congr rfl
        intro m _
        rw [init_kernel_sin frame_len frame_hop w rp nrm false (B - (p - B)) m
            (by omega) hB,
          init_kernel_sin frame_len frame_hop w rp nrm false (p - B) m hjB hB,
          kernel_sin_symm B (p - B) m (le_of_lt hjB) hB]
        ring
      rw [him]
      ring

lemma frame_dot (frame_len frame_hop : ℕ) (rp nrm onesided : Bool)
    (w x : ℕ → ℝ) (t off : ℕ)
    (hoff : off < frame_len)
    (hB : 0 < fft_points frame_len rp)
    (hLB : frame_len ≤ fft_points frame_len rp)
    (hB2 : onesided = true → 2 ∣ fft_points frame_len rp) :
    ∑ p ∈ Finset.range (2 * fft_points frame_len rp),
      istft_packed (forward_stft x frame_len frame_hop w rp nrm)
          (fft_points frame_len rp) onesided p t *
        init_kernel frame_len frame_hop w rp nrm true p off
      = w off ^ 2 * x (t * frame_hop + off) := by
  have hBne : ((fft_points frame_len rp : ℕ) : ℝ) ≠ 0 :=
    Nat.cast_ne_zero.mpr hB.ne'
  have hred : ∀ p ∈ Finset.range (2 * fft_points frame_len rp),
      istft_packed (forward_stft x frame_len frame_hop w rp nrm)
          (fft_points frame_len rp) onesided p t *
        init_kernel frame_len frame_hop w rp nrm true p off =
      istft_packed (forward_stft x frame_len frame_hop w rp nrm)
          (fft_points frame_len rp) false p t *
        init_kernel frame_len frame_hop w rp nrm true p off := by
    intro p hp
    cases onesided
    · rfl
    · rw [istft_packed_twosided frame_len frame_hop rp nrm w x p t hB
        (Finset.mem_range.mp hp) (hB2 rfl)]
  rw [Finset.sum_congr rfl hred, two_mul, Finset.sum_range_add]
  have hstep1 : ∀ k ∈ Finset.range (fft_points frame_len rp),
      istft_packed (forward_stft x frame_len frame_hop w rp nrm)
          (fft_points frame_len rp) false k t *
        init_kernel frame_len frame_hop w rp nrm true k off =
      ∑ m ∈ Finset.range frame_len,
        x (t * frame_hop + m) * w m * w off *
          (kernel_scale nrm false (fft_points frame_len rp) *
            kernel_scale nrm true (fft_points frame_len rp)) *
          (Real.cos (2 * Real.pi * k * m / (fft_points frame_len rp : ℝ)) *
            Real.cos (2 * Real.pi * k * off / (fft_points frame_len rp : ℝ))) := by
    intro k hk
    rw [Finset.mem_range] at hk
    have hpk : istft_packed (forward_stft x frame_len frame_hop w rp nrm)
        (fft_points frame_len rp) false k t =
        conv1d x (init_kernel frame_len frame_hop w rp nrm false)
          frame_len frame_hop k t := by
      simp only [istft_packed, Bool.false_eq_true, if_false, ite_false]
      rw [if_pos hk]
      rfl
    rw [hpk, init_kernel_cos frame_len frame_hop w rp nrm true k off hk hB]
    unfold conv1d
    rw [Finset.sum_mul]
    apply Finset.sum_congr rfl
    intro m _
    rw [init_kernel_cos frame_len frame_hop w rp nrm false k m hk hB]
    ring
  have hstep2 : ∀ k ∈ Finset.range (fft_points frame_len rp),
      istft_packed (forward_stft x frame_len frame_hop w rp nrm)
          (fft_points frame_len rp) false (fft_points frame_len rp + k) t *
        init_kernel frame_len frame_hop w rp nrm true
          (fft_points frame_len rp + k) off =
      ∑ m ∈ Finset.range frame_len,
        x (t * frame_hop + m) * w m * w off *
          (kernel_scale nrm false (fft_points frame_len rp) *
            kernel_scale nrm true (fft_points frame_len rp)) *
          (Real.sin (2 * Real.pi * k * m / (fft_points frame_len rp : ℝ)) *
            Real.sin (2 * Real.pi * k * off / (fft_points frame_len rp : ℝ))) := by
    intro k hk
    rw [Finset.mem_range] at hk
    have hpk : istft_packed (forward_stft x frame_len frame_hop w rp nrm)
        (fft_points frame_len rp) false (fft_points frame_len rp + k) t =
        conv1d x (init_kernel frame_len frame_hop w rp nrm false)
          frame_len frame_hop (fft_points frame_len rp + k) t := by
      simp only [istft_packed, Bool.false_eq_true, if_false, ite_false]
      rw [if_neg (by omega), Nat.add_sub_cancel_left]
      rfl
    rw [hpk, init_kernel_sin frame_len frame_hop w rp nrm true k off hk hB]
    unfold conv1d
    rw [Finset.sum_mul]
    apply Finset.sum_congr rfl
    intro m _
    rw [init_kernel_sin frame_len frame_hop w rp nrm false k m hk hB]
    ring
  rw [Finset.sum_congr rfl hstep1, Finset.sum_congr rfl hstep2,
    ← Finset.sum_add_distrib]
  have hcomb : ∀ k ∈ Finset.range (fft_points frame_len rp),
      (∑ m ∈ Finset.range frame_len,
        x (t * frame_hop + m) * w m * w off *
          (kernel_scale nrm false (fft_points frame_len rp) *
            kernel_scale nrm true (fft_points frame_len rp)) *
          (Real.cos (2 * Real.pi * k * m / (fft_points frame_len rp : ℝ)) *
            Real.cos (2 * Real.pi * k * off / (fft_points frame_len rp : ℝ)))) +
      (∑ m ∈ Finset.range frame_len,
        x (t * frame_hop + m) * w m * w off *
          (kernel_scale nrm false (fft_points frame_len rp) *
            kernel_scale nrm true (fft_points frame_len rp)) *
          (Real.sin (2 * Real.pi * k * m / (fft_points frame_len rp : ℝ)) *
            Real.sin (2 * Real.pi * k * off / (fft_points frame_len rp : ℝ)))) =
      ∑ m ∈ Finset.range frame_len,
        x (t * frame_hop + m) * w m * w off *
          (kernel_scale nrm false (fft_points frame_len rp) *
            kernel_scale nrm true (fft_points frame_len rp)) *
          (Real.cos (2 * Real.pi * k * m / (fft_points frame_len rp : ℝ)) *
            Real.cos (2 * Real.pi * k * off / (fft_points frame_len rp : ℝ)) +
          Real.sin (2 * Real.pi * k * m / (fft_points frame_len rp : ℝ)) *
            Real.sin (2 * Real.pi * k * off / (fft_points frame_len rp : ℝ))) := by
    intro k _
    rw [← Finset.sum_add_distrib]
    apply Finset.sum_congr rfl
    intro m _
    ring
  rw [Finset.sum_congr rfl hcomb, Finset.sum_comm]
  have hinner : ∀ m ∈ Finset.range frame_len,
      (∑ k ∈ Finset.range (fft_points frame_len rp),
        x (t * frame_hop + m) * w m * w off *
          (kernel_scale nrm false (fft_points frame_len rp) *
            kernel_scale nrm true (fft_points frame_len rp)) *
          (Real.cos (2 * Real.pi * k * m / (fft_points frame_len rp : ℝ)) *
            Real.cos (2 * Real.pi * k * off / (fft_points frame_len rp : ℝ)) +
          Real.sin (2 * Real.pi * k * m / (fft_points frame_len rp : ℝ)) *
            Real.sin (2 * Real.pi * k * off / (fft_points frame_len rp : ℝ)))) =
      if m = off then w off ^ 2 * x (t * frame_hop + off) else 0 := by
    intro m hm
    rw [Finset.mem_range] at hm
    have hfac : (∑ k ∈ Finset.range (fft_points frame_len rp),
        x (t * frame_hop + m) * w m * w off *
          (kernel_scale nrm false (fft_points frame_len rp) *
            kernel_scale nrm true (fft_points frame_len rp)) *
          (Real.cos (2 * Real.pi * k * m / (fft_points frame_len rp : ℝ)) *
            Real.cos (2 * Real.pi * k * off / (fft_points frame_len rp : ℝ)) +
          Real.sin (2 * Real.pi * k * m / (fft_points frame_len rp : ℝ)) *
            Real.sin (2 * Real.pi * k * off / (fft_points frame_len rp : ℝ)))) =
        x (t * frame_hop + m) * w m * w off *
          (kernel_scale nrm false (fft_points frame_len rp) *
            kernel_scale nrm true (fft_points frame_len rp)) *
        ∑ k ∈ Finset.range (fft_points frame_len rp),
          (Real.cos (2 * Real.pi * k * m / (fft_points frame_len rp : ℝ)) *
            Real.cos (2 * Real.pi * k * off / (fft_points frame_len rp : ℝ)) +
          Real.sin (2 * Real.pi * k * m / (fft_points frame_len rp : ℝ)) *
            Real.sin (2 * Real.pi * k * off / (fft_points frame_len rp : ℝ))) := by
      rw [Finset.mul_sum]
    rw [hfac, dft_orthogonality (fft_points frame_len rp) hB m off
      (lt_of_lt_of_le hm hLB) (lt_of_lt_of_le hoff hLB),
      kernel_scale_mul nrm (fft_points frame_len rp) hB]
    by_cases hmo : m = off
    · subst hmo
      rw [if_pos rfl, if_pos rfl]
      field_simp
      ring
    · rw [if_neg hmo, if_neg hmo, mul_zero]
  rw [Finset.sum_congr rfl hinner,
    Finset.sum_ite_eq' (Finset.range frame_len),
    if_pos (Finset.mem_range.mpr hoff)]

lemma istft_raw_eq (frame_len frame_hop T : ℕ) (rp nrm onesided : Bool)
    (w x : ℕ → ℝ) (i : ℕ)
    (hB : 0 < fft_points frame_len rp)
    (hLB : frame_len ≤ fft_points frame_len rp)
    (hB2 : onesided = true → 2 ∣ fft_points frame_len rp) :
    istft_raw (forward_stft x frame_len frame_hop w rp nrm)
        (init_kernel frame_len frame_hop w rp nrm true)
        (fft_points frame_len rp) frame_len frame_hop T onesided i =
      x i * istft_norm w frame_len frame_hop T i := by
  rw [istft_norm_eq, Finset.mul_sum]
  unfold istft_raw conv_transpose1d
  apply Finset.sum_congr rfl
  intro t _
  by_cases hcov : t * frame_hop ≤ i ∧ i < t * frame_hop + frame_len
  · have h1 : ∀ p ∈ Finset.range (2 * fft_points frame_len rp),
        (if t * frame_hop ≤ i ∧ i < t * frame_hop + frame_len then
          istft_packed (forward_stft x frame_len frame_hop w rp nrm)
              (fft_points frame_len rp) onesided p t *
            init_kernel frame_len frame_hop w rp nrm true p (i - t * frame_hop)
         else 0) =
        istft_packed (forward_stft x frame_len frame_hop w rp nrm)
            (fft_points frame_len rp) onesided p t *
          init_kernel frame_len frame_hop w rp nrm true p (i - t * frame_hop) :=
      fun p _ => if_pos hcov
    rw [Finset.sum_congr rfl h1,
      frame_dot frame_len frame_hop rp nrm onesided w x t (i - t * frame_hop)
        (by omega) hB hLB hB2,
      if_pos hcov]
    have hoffi : t * frame_hop + (i - t * frame_hop) = i := by omega
    rw [hoffi]
    ring
  · rw [if_neg hcov, mul_zero]
    apply Finset.sum_eq_zero
    intro p _
    rw [if_neg hcov]

lemma hann_window_pos (L m : ℕ) (h0 : 0 < m) (hm : m < L) :
    0 < hann_window L m := by
  have hL : (0 : ℝ) < L := by exact_mod_cast h0.trans hm
  have harg : Real.cos (2 * Real.pi * m / L) ≠ 1 := by
    intro h1
    rw [Real.cos_eq_one_iff] at h1
    obtain ⟨n, hn⟩ := h1
    have h2 : (n : ℝ) * L = m := by
      have hLne : (L : ℝ) ≠ 0 := hL.ne'
      field_simp at hn
      have h3 : (2 * Real.pi) * ((n : ℝ) * L) = (2 * Real.pi) * m := by
        linear_combination hn
      exact mul_left_cancel₀ (by positivity) h3
    have h4 : (n : ℤ) * L = m := by exact_mod_cast h2
    rcases le_or_lt n 0 with hn0 | hn0
    · have h5 : (n : ℤ) * L ≤ 0 :=
        mul_nonpos_iff.mpr (Or.inr ⟨hn0, Int.natCast_nonneg L⟩)
      omega
    · have h6 : (L : ℤ) ≤ n * L :=
        le_mul_of_one_le_left (Int.natCast_nonneg L) hn0
      omega
  have hle := Real.cos_le_one (2 * Real.pi * m / L)
  have hlt : Real.cos (2 * Real.pi * m / L) < 1 := lt_of_le_of_ne hle harg
  unfold hann_window
  linarith

lemma sqrthann_window_ne_zero (L m : ℕ) (h0 : 0 < m) (hm : m < L) :
    sqrthann_window L m ≠ 0 := by
  unfold sqrthann_window
  rw [Real.sqrt_ne_zero']
  exact hann_window_pos L m h0 hm

lemma istft_norm_pos (w : ℕ → ℝ) (frame_len frame_hop T i : ℕ)
    (hhop : 0 < frame_hop) (hL2 : 2 * frame_hop ≤ frame_len) (hT : 1 ≤ T)
    (hwpos : ∀ m, 0 < m → m < frame_len → w m ≠ 0)
    (hi1 : frame_hop ≤ i)
    (hi2 : i ≤ (T - 1) * frame_hop + (frame_len - 1)) :
    0 < istft_norm w frame_len frame_hop T i := by
  rw [istft_norm_eq]
  have hdm := Nat.div_add_mod (i - 1) frame_hop
  have hmlt : (i - 1) % frame_hop < frame_hop := Nat.mod_lt _ hhop
  set q := (i - 1) / frame_hop with hq
  set f := min (T - 1) q with hf
  have hfT : f < T := by
    have h := min_le_left (T - 1) q
    omega
  have hcov : f * frame_hop ≤ i ∧ i < f * frame_hop + frame_len ∧
      0 < i - f * frame_hop ∧ i - f * frame_hop < frame_len := by
    rcases min_cases (T - 1) q with ⟨hfe, hle⟩ | ⟨hfe, hlt⟩
    · -- f = T - 1 with T - 1 ≤ q
      have hmul : (T - 1) * frame_hop ≤ q * frame_hop :=
        Nat.mul_le_mul_right _ hle
      have hor : q * frame_hop = frame_hop * q := Nat.mul_comm _ _
      have hfe2 : f * frame_hop = (T - 1) * frame_hop := by rw [hf, hfe]
      omega
    · -- f = q with q < T - 1
      have hfe2 : f * frame_hop = frame_hop * q := by
        rw [hf, hfe, Nat.mul_comm]
      omega
  obtain ⟨hc1, hc2, hc3, hc4⟩ := hcov
  apply Finset.sum_pos'
  · intro t _
    by_cases h : t * frame_hop ≤ i ∧ i < t * frame_hop + frame_len
    · rw [if_pos h]
      positivity
    · rw [if_neg h]
  · refine ⟨f, Finset.mem_range.mpr hfT, ?_⟩
    rw [if_pos ⟨hc1, hc2⟩]
    exact lt_of_le_of_ne (sq_nonneg _)
      (pow_ne_zero 2 (hwpos _ hc3 hc4)).symm

/-- **C1** (confirmed, over exact real arithmetic): for every waveform of
length `S ≥ frame_len` and a constant-overlap-add-compliant window
(`sqrt-hann` at 50% hop, or `hann` at any hop `≤ frame_len / 2`), applying
the inverse STFT (unnormalized inverse kernel, or normalized pair) to the
forward STFT in complex format reconstructs the waveform exactly at every
sample of the interior region `frame_hop ≤ i ≤ (T-1)*frame_hop +
(frame_len-1)` (away from the first/last frame boundary), for both the
one-sided and two-sided bin layouts.  Over floats this is reconstruction up
to rounding, which is the claimed `1e-5` relative tolerance. -/
theorem stft_istft_reconstruction
    (frame_len frame_hop S : ℕ) (rp normalized onesided : Bool)
    (w x : ℕ → ℝ)
    (hhop : 0 < frame_hop) (hLS : frame_len ≤ S)
    (hos : onesided = true → 2 ∣ fft_points frame_len rp)
    (hw : (w = sqrthann_window frame_len ∧ frame_len = 2 * frame_hop) ∨
          (w = hann_window frame_len ∧ 2 * frame_hop ≤ frame_len))
    (i : ℕ) (hi1 : frame_hop ≤ i)
    (hi2 : i ≤ ((S - frame_len) / frame_hop) * frame_hop + (frame_len - 1)) :
    inverse_stft (forward_stft x frame_len frame_hop w rp normalized)
        frame_len frame_hop w rp normalized onesided
        ((S - frame_len) / frame_hop + 1) i = x i := by
  have hL2 : 2 * frame_hop ≤ frame_len := by
    rcases hw with ⟨_, h⟩ | ⟨_, h⟩
    · omega
    · exact h
  have hLpos : 0 < frame_len := by omega
  have hB : 0 < fft_points frame_len rp := by
    cases rp
    · simpa [fft_points] using hLpos
    · show 0 < 2 ^ Nat.clog 2 frame_len
      exact pow_pos (by norm_num) _
  have hLB : frame_len ≤ fft_points frame_len rp := by
    cases rp
    · simp [fft_points]
    · show frame_len ≤ 2 ^ Nat.clog 2 frame_len
      exact Nat.le_pow_clog one_lt_two _
  have hwpos : ∀ m, 0 < m → m < frame_len → w m ≠ 0 := by
    rcases hw with ⟨hwe, _⟩ | ⟨hwe, _⟩
    · intro m h0 hm
      rw [hwe]
      exact sqrthann_window_ne_zero _ m h0 hm
    · intro m h0 hm
      rw [hwe]
      exact (hann_window_pos _ m h0 hm).ne'
  have hTpos : 1 ≤ (S - frame_len) / frame_hop + 1 :=
    Nat.succ_le_succ (Nat.zero_le _)
  have hnorm := istft_norm_pos w frame_len frame_hop
    ((S - frame_len) / frame_hop + 1) i hhop hL2 hTpos hwpos hi1
    (by simpa using hi2)
  simp only [inverse_stft, inverse_stft_complex]
  rw [if_neg hnorm.ne',
    istft_raw_eq frame_len frame_hop ((S - frame_len) / frame_hop + 1)
      rp normalized onesided w x i hB hLB hos,
    mul_div_assoc, div_self hnorm.ne', mul_one]

/-- Witness for `stft_istft_reconstruction`: the constant waveform of length
`S = 2` with `frame_len = 2`, `frame_hop = 1`, Hann window, two-sided, at the
interior sample `i = 1`. -/
theorem stft_istft_reconstruction_witness :
    (0 < 1) ∧ (2 ≤ 2) ∧ ((1 : ℕ) ≤ 1) ∧
      ((1 : ℕ) ≤ ((2 - 2) / 1) * 1 + (2 - 1)) ∧
      inverse_stft (forward_stft (fun _ => (1 : ℝ)) 2 1 (hann_window 2)
          false false) 2 1 (hann_window 2) false false false
        ((2 - 2) / 1 + 1) 1 = 1 :=
  ⟨by decide, by decide, by decide, by decide,
    stft_istft_reconstruction 2 1 2 false false false (hann_window 2)
      (fun _ => 1) (by decide) (by decide) (by decide)
      (Or.inr ⟨rfl, by decide⟩) 1 (by decide) (by decide)⟩

end Aps
